import Mathlib

/-!
Shallow embedding of `src/todolist-parcial.ts` (a todo-list program: Task
entity, JSON-file repository, pure sort/predicate utilities, and a
TaskManager with an in-memory write-through cache), together with proofs
of the behavioural claims about it.

Modelling conventions:
* TypeScript strings are `String`; the runtime values of the string enums
  `TaskStatus` / `TaskDifficulty` are kept as plain strings (`"todo"`,
  `"low"`, ...) because the code ranks *unrecognized* difficulty values
  (`difficultyRank`'s `default` branch), which only exist at the string level.
* `Partial<ITask>` payloads become a structure of `Option` fields; an absent
  property is `none`.
* `uuidv4()` and `new Date().toISOString()` are nondeterministic inputs of the
  constructor; they are passed as explicit `freshId` / `nowIso` arguments.
* `new Date(s).getTime()` is abstracted as a parameter `parse : String → Int`;
  theorems are proved for every such parse function.
* The JS falsiness test `!t.dueDate` is true for both `undefined` and `""`,
  so the embedding checks `none` and `some ""` wherever the source uses it.
* Async I/O is modelled by explicit state passing: the manager state holds the
  cache (`none` = not yet loaded) and the disk contents; every operation
  returns the new state.
-/

namespace Todo

/-- Embedding of the `ITask` record (fields as assigned by the `Task`
constructor; `tags`/`relatedIds`/`deleted` are always set there, so they are
total here). `status` and `difficulty` stay strings, see the header comment. -/
structure ITask where
  id : String
  title : String
  description : Option String := none
  createdAt : String
  dueDate : Option String := none
  difficulty : String := "medium"
  priority : Int := 3
  status : String := "todo"
  tags : List String := []
  relatedIds : List String := []
  deleted : Bool := false
deriving DecidableEq

/-- Embedding of `Partial<ITask>`: every field optional; used both as the
constructor payload and as the `changes` argument of `update`. -/
structure TaskPayload where
  id : Option String := none
  title : Option String := none
  description : Option String := none
  createdAt : Option String := none
  dueDate : Option String := none
  difficulty : Option String := none
  priority : Option Int := none
  status : Option String := none
  tags : Option (List String) := none
  relatedIds : Option (List String) := none
  deleted : Option Bool := none
deriving DecidableEq

/-- The `Task` constructor. `!payload.title` is falsy for an absent title and
for `""`; otherwise each field takes the payload value or its default
(`?? uuidv4()`, `?? new Date().toISOString()`, `?? MEDIUM`, ternary `3`,
`?? TODO`, `?? []`, `?? []`, `?? false`). `freshId`/`nowIso` stand for the
`uuidv4()` and `new Date().toISOString()` calls. -/
def mkTask (freshId nowIso : String) (p : TaskPayload) : Except String ITask :=
  match p.title with
  | none => .error "Task must have a non-empty title"
  | some t =>
    if t = "" then .error "Task must have a non-empty title"
    else .ok
      { id := p.id.getD freshId
        title := t
        description := p.description
        createdAt := p.createdAt.getD nowIso
        dueDate := p.dueDate
        difficulty := p.difficulty.getD "medium"
        priority := p.priority.getD 3
        status := p.status.getD "todo"
        tags := p.tags.getD []
        relatedIds := p.relatedIds.getD []
        deleted := p.deleted.getD false }

/-- `Task.complete()`: sets status to done. -/
def ITask.complete (t : ITask) : ITask := { t with status := "done" }

/-- `Task.softDelete()`: sets the soft-delete flag. -/
def ITask.markDeleted (t : ITask) : ITask := { t with deleted := true }

/-- `Task.restore()`: clears the soft-delete flag. -/
def ITask.restore (t : ITask) : ITask := { t with deleted := false }

/-- `isNotDeleted`: `!t.deleted`. -/
def isNotDeleted (t : ITask) : Bool := !t.deleted

/-- The due-date key used by `sortByDueDate` and `isOverdue`: `undefined` and
`""` are falsy, so both count as "no due date"; otherwise the key is
`new Date(d).getTime()`, abstracted by `parse`. -/
def dueTime (parse : String → Int) (t : ITask) : Option Int :=
  match t.dueDate with
  | none => none
  | some d => if d = "" then none else some (parse d)

/-- `isOverdue(nowIso)(t)`: false when `!t.dueDate`; otherwise compares the
parsed due date strictly against the parsed `nowIso`. -/
def isOverdue (parse : String → Int) (nowIso : String) (t : ITask) : Bool :=
  match t.dueDate with
  | none => false
  | some d => if d = "" then false else decide (parse d < parse nowIso)

/-- The boolean order induced by `sortByDueDate`'s comparator `da - db` with a
missing due date as `Infinity` (`Infinity - Infinity` is `NaN`, which the sort
treats as 0, i.e. "equal"): `a` may stay before `b` iff the comparator is
`<= 0` there. -/
def dueLe (parse : String → Int) (a b : ITask) : Bool :=
  match dueTime parse a, dueTime parse b with
  | some x, some y => decide (x ≤ y)
  | some _, none => true
  | none, some _ => false
  | none, none => true

/-- `sortByDueDate`: a stable sort of a copy of the array by the due-date
comparator (ECMAScript `Array.prototype.sort` is stable). -/
def sortByDueDate (parse : String → Int) (tasks : List ITask) : List ITask :=
  tasks.mergeSort (dueLe parse)

/-- `difficultyRank`: low 1, medium 2, high 3, anything else (the `default`
branch) 2. -/
def difficultyRank (d : String) : Int :=
  if d = "low" then 1
  else if d = "medium" then 2
  else if d = "high" then 3
  else 2

/-- The boolean order induced by `sortByDifficulty`'s comparator
`difficultyRank(a) - difficultyRank(b)`. -/
def diffLe (a b : ITask) : Bool :=
  decide (difficultyRank a.difficulty ≤ difficultyRank b.difficulty)

/-- `sortByDifficulty`: stable sort of a copy by difficulty rank. -/
def sortByDifficulty (tasks : List ITask) : List ITask :=
  tasks.mergeSort diffLe

/-- `sortByTitle`: stable sort of a copy by `localeCompare`; the locale order
is abstracted as `titleLe a b` = "compare(a, b) <= 0". -/
def sortByTitle (titleLe : String → String → Bool) (tasks : List ITask) : List ITask :=
  tasks.mergeSort (fun a b => titleLe a.title b.title)

/-- `sortByCreation`: stable sort of a copy by parsed `createdAt`. -/
def sortByCreation (parse : String → Int) (tasks : List ITask) : List ITask :=
  tasks.mergeSort (fun a b => decide (parse a.createdAt ≤ parse b.createdAt))

/-- TaskManager state: `cache` is `none` before the first load (distinct from
an empty collection); `disk` is the repository file contents at the ITask
level (the repository's JSON layer is modelled separately below). -/
structure MState where
  cache : Option (List ITask)
  disk : List ITask
deriving DecidableEq

/-- The collection an operation acts on: the cache once loaded, else what the
load would bring in. -/
def coll (s : MState) : List ITask :=
  match s.cache with
  | none => s.disk
  | some l => l

/-- `loadIfNeeded`: populate the cache from the repository only when it is
still unloaded. -/
def loadIfNeeded (s : MState) : MState :=
  match s.cache with
  | none => { cache := some s.disk, disk := s.disk }
  | some _ => s

/-- `add`: load if needed, construct the Task (propagating its validation
error), push it onto the cache, persist the whole cache. -/
def add (freshId nowIso : String) (p : TaskPayload) (s : MState) :
    Except String (MState × ITask) :=
  let s1 := loadIfNeeded s
  match mkTask freshId nowIso p with
  | .error e => .error e
  | .ok t =>
    let c := coll s1 ++ [t]
    .ok ({ cache := some c, disk := c }, t)

/-- The merge `{ ...current, ...changes, id: current.id }`: every field
present in `changes` overwrites `current`, except `id`, which is reassigned
from `current` last. -/
def applyChanges (current : ITask) (c : TaskPayload) : ITask :=
  { id := current.id
    title := c.title.getD current.title
    description := match c.description with | none => current.description | some d => some d
    createdAt := c.createdAt.getD current.createdAt
    dueDate := match c.dueDate with | none => current.dueDate | some d => some d
    difficulty := c.difficulty.getD current.difficulty
    priority := c.priority.getD current.priority
    status := c.status.getD current.status
    tags := c.tags.getD current.tags
    relatedIds := c.relatedIds.getD current.relatedIds
    deleted := c.deleted.getD current.deleted }

/-- `findIndex` + replacement at that index, as structural recursion: replace
the first task whose id matches, returning the new list and the new record;
`none` when `findIndex` returns -1. -/
def updateFirst (id : String) (c : TaskPayload) : List ITask → Option (List ITask × ITask)
  | [] => none
  | t :: ts =>
    if t.id = id then
      some (applyChanges t c :: ts, applyChanges t c)
    else
      match updateFirst id c ts with
      | none => none
      | some (l, u) => some (t :: l, u)

/-- `update(id, changes)`: load if needed; `findIndex` on the cache; on -1
return the not-found sentinel without writing; otherwise store the merged
record at that index, persist the whole cache, and return the merged record. -/
def update (id : String) (c : TaskPayload) (s : MState) : MState × Option ITask :=
  let s1 := loadIfNeeded s
  match updateFirst id c (coll s1) with
  | none => (s1, none)
  | some (l, u) => ({ cache := some l, disk := l }, some u)

/-- `find` + in-place `t.deleted = true`, as structural recursion: set the
flag on the first task whose id matches; `none` when `find` misses. -/
def softDeleteFirst (id : String) : List ITask → Option (List ITask)
  | [] => none
  | t :: ts =>
    if t.id = id then some ({ t with deleted := true } :: ts)
    else
      match softDeleteFirst id ts with
      | none => none
      | some l => some (t :: l)

/-- `softDelete(id)`: load if needed; on a miss return false without writing;
otherwise flag the found task, persist the whole cache, return true. -/
def softDelete (id : String) (s : MState) : MState × Bool :=
  let s1 := loadIfNeeded s
  match softDeleteFirst id (coll s1) with
  | none => (s1, false)
  | some l => ({ cache := some l, disk := l }, true)

/-- `hardDelete(id)`: load if needed; keep only the tasks whose id differs;
persist; report whether the length decreased. -/
def hardDelete (id : String) (s : MState) : MState × Bool :=
  let s1 := loadIfNeeded s
  let l := coll s1
  let l2 := l.filter (fun x => x.id != id)
  ({ cache := some l2, disk := l2 }, decide (l2.length < l.length))

/-- The `sortBy` variants accepted by `list`. -/
inductive SortKey where
  | title
  | createdAt
  | dueDate
  | difficulty
deriving DecidableEq

/-- The options object of `list`; an absent options object is the default
value (`includeDeleted` falsy, no `sortBy`). -/
structure ListOptions where
  includeDeleted : Bool := false
  sortBy : Option SortKey := none
deriving DecidableEq

/-- `list(options)`: filter out deleted tasks unless `includeDeleted`, then
apply the selected pure sorter. Returns the (possibly just-loaded) state and
the resulting list. -/
def listTasks (parse : String → Int) (titleLe : String → String → Bool)
    (opts : ListOptions) (s : MState) : MState × List ITask :=
  let s1 := loadIfNeeded s
  let r0 := coll s1
  let r1 := if opts.includeDeleted then r0 else r0.filter isNotDeleted
  let r2 :=
    match opts.sortBy with
    | some .title => sortByTitle titleLe r1
    | some .createdAt => sortByCreation parse r1
    | some .dueDate => sortByDueDate parse r1
    | some .difficulty => sortByDifficulty r1
    | none => r1
  (s1, r2)

/-- JSON values, for the repository layer: the file parses to a list of these
and `readAll` filters them by runtime shape. -/
inductive Json where
  | null
  | bool (b : Bool)
  | num (n : Int)
  | str (s : String)
  | arr (elems : List Json)
  | obj (fields : List (String × Json))

/-- JS property access `t.key` on a parsed JSON value: a lookup on objects,
`undefined` (here `none`) on everything else. (`t.key` on `null` would throw,
but `readAll` guards every access with a truthiness test first.) -/
def getField (j : Json) (key : String) : Option Json :=
  match j with
  | .obj fields => fields.lookup key
  | _ => none

/-- JS truthiness of a parsed JSON value. -/
def truthy (j : Json) : Bool :=
  match j with
  | .null => false
  | .bool b => b
  | .num n => !(n == 0)
  | .str s => !(s == "")
  | .arr _ => true
  | .obj _ => true

/-- `typeof v === "string"` after a property access. -/
def isStr (j : Option Json) : Bool :=
  match j with
  | some (.str _) => true
  | _ => false

/-- `readAll`'s per-record filter:
`t && typeof t.id === "string" && typeof t.title === "string"`. -/
def shapeOk (j : Json) : Bool :=
  truthy j && isStr (getField j "id") && isStr (getField j "title")

/-- `readAll()`: a missing file (ENOENT) is the empty collection; otherwise
the parsed array filtered by the minimal shape check. The JSON text layer is
modelled as the parsed list itself (`JSON.parse ∘ JSON.stringify` is the
identity on these values). -/
def readAll (file : Option (List Json)) : List Json :=
  match file with
  | none => []
  | some js => js.filter shapeOk

/-- `writeAll(tasks)`: replaces the file contents with the serialized array. -/
def writeAll (js : List Json) : Option (List Json) := some js

/-- `JSON.stringify` of one constructed task record (fields holding
`undefined` are omitted by `stringify`). -/
def taskToJson (t : ITask) : Json :=
  .obj
    ([("id", .str t.id), ("title", .str t.title)]
      ++ (match t.description with | none => [] | some d => [("description", Json.str d)])
      ++ [("createdAt", .str t.createdAt)]
      ++ (match t.dueDate with | none => [] | some d => [("dueDate", Json.str d)])
      ++ [("difficulty", .str t.difficulty), ("priority", .num t.priority),
          ("status", .str t.status), ("tags", .arr (t.tags.map Json.str)),
          ("relatedIds", .arr (t.relatedIds.map Json.str)),
          ("deleted", .bool t.deleted)])

/-- Concrete fixture: one task. -/
def taskA : ITask := { id := "a", title := "first", createdAt := "2024-01-01T00:00:00Z" }

/-- Concrete fixture: a loaded manager holding exactly `taskA`. -/
def sOne : MState := { cache := some [taskA], disk := [taskA] }

/-- Concrete fixture: a loaded manager holding two tasks with the same id
(reachable, since `add` never checks id uniqueness). -/
def sDup : MState := { cache := some [taskA, taskA], disk := [taskA, taskA] }

/-- Concrete stand-in for `new Date(s).getTime()` in witnesses: any function
works, the theorems hold for all of them. -/
def parseLen (s : String) : Int := s.length

end Todo

namespace Todo

/-- Loading does not change the collection an operation sees. -/
theorem coll_loadIfNeeded (s : MState) : coll (loadIfNeeded s) = coll s := by
  cases h : s.cache <;> simp [coll, loadIfNeeded, h]

/-- Loading does not change the disk. -/
theorem disk_loadIfNeeded (s : MState) : (loadIfNeeded s).disk = s.disk := by
  cases h : s.cache <;> simp [loadIfNeeded, h]

/-- `findIndex` misses when no task has the id. -/
theorem updateFirst_eq_none (id : String) (c : TaskPayload) :
    ∀ l : List ITask, (∀ t ∈ l, t.id ≠ id) → updateFirst id c l = none := by
  intro l
  induction l with
  | nil => intro _; rfl
  | cons t ts ih =>
    intro h
    have h1 : t.id ≠ id := h t (List.mem_cons_self t ts)
    simp [updateFirst, h1, ih fun x hx => h x (List.mem_cons_of_mem t hx)]

/-- When `find` hits `t0`, the replacement list exists, the new record is the
merge of `t0` with the changes, and it sits in the new list. -/
theorem updateFirst_find (id : String) (c : TaskPayload) :
    ∀ l : List ITask, ∀ t0, l.find? (fun t => t.id == id) = some t0 →
      ∃ l', updateFirst id c l = some (l', applyChanges t0 c) ∧ applyChanges t0 c ∈ l' := by
  intro l
  induction l with
  | nil => intro t0 h; simp [List.find?] at h
  | cons t ts ih =>
    intro t0 h
    by_cases h1 : t.id = id
    · rw [List.find?_cons_of_pos _ (by simp [h1])] at h
      have ht : t = t0 := by simpa using h
      subst ht
      exact ⟨applyChanges t c :: ts, by simp [updateFirst, h1], List.mem_cons_self _ _⟩
    · rw [List.find?_cons_of_neg _ (by simp [h1])] at h
      obtain ⟨l', hl', hmem⟩ := ih t0 h
      exact ⟨t :: l', by simp [updateFirst, h1, hl'], List.mem_cons_of_mem t hmem⟩

/-- Replacing the first match leaves every `createdAt` in place when the
changes carry no `createdAt`. -/
theorem updateFirst_map_createdAt (id : String) (c : TaskPayload) (hc : c.createdAt = none) :
    ∀ l l' : List ITask, ∀ u, updateFirst id c l = some (l', u) →
      l'.map ITask.createdAt = l.map ITask.createdAt := by
  intro l
  induction l with
  | nil => intro l' u h; simp [updateFirst] at h
  | cons t ts ih =>
    intro l' u h
    by_cases h1 : t.id = id
    · simp only [updateFirst, if_pos h1] at h
      obtain ⟨rfl, -⟩ : applyChanges t c :: ts = l' ∧ applyChanges t c = u := by
        simpa using h
      simp [applyChanges, hc]
    · simp only [updateFirst, if_neg h1] at h
      cases hu : updateFirst id c ts with
      | none => rw [hu] at h; simp at h
      | some p =>
        rw [hu] at h
        obtain ⟨rfl, -⟩ : t :: p.1 = l' ∧ p.2 = u := by
          cases p; simpa using h
        simp [ih p.1 p.2 (by rw [hu])]

/-- `find` misses when no task has the id (soft delete). -/
theorem softDeleteFirst_eq_none (id : String) :
    ∀ l : List ITask, (∀ t ∈ l, t.id ≠ id) → softDeleteFirst id l = none := by
  intro l
  induction l with
  | nil => intro _; rfl
  | cons t ts ih =>
    intro h
    have h1 : t.id ≠ id := h t (List.mem_cons_self t ts)
    simp [softDeleteFirst, h1, ih fun x hx => h x (List.mem_cons_of_mem t hx)]

/-- When `find` hits `t0`, soft delete produces a list containing `t0` with
the flag set. -/
theorem softDeleteFirst_find (id : String) :
    ∀ l : List ITask, ∀ t0, l.find? (fun t => t.id == id) = some t0 →
      ∃ l', softDeleteFirst id l = some l' ∧ ({ t0 with deleted := true } : ITask) ∈ l' := by
  intro l
  induction l with
  | nil => intro t0 h; simp [List.find?] at h
  | cons t ts ih =>
    intro t0 h
    by_cases h1 : t.id = id
    · rw [List.find?_cons_of_pos _ (by simp [h1])] at h
      have ht : t = t0 := by simpa using h
      subst ht
      exact ⟨{ t with deleted := true } :: ts, by simp [softDeleteFirst, h1],
        List.mem_cons_self _ _⟩
    · rw [List.find?_cons_of_neg _ (by simp [h1])] at h
      obtain ⟨l', hl', hmem⟩ := ih t0 h
      exact ⟨t :: l', by simp [softDeleteFirst, h1, hl'], List.mem_cons_of_mem t hmem⟩

/-- Soft delete only touches the `deleted` flag: every `createdAt` is kept. -/
theorem softDeleteFirst_map_createdAt (id : String) :
    ∀ l l' : List ITask, softDeleteFirst id l = some l' →
      l'.map ITask.createdAt = l.map ITask.createdAt := by
  intro l
  induction l with
  | nil => intro l' h; simp [softDeleteFirst] at h
  | cons t ts ih =>
    intro l' h
    by_cases h1 : t.id = id
    · simp only [softDeleteFirst, if_pos h1] at h
      obtain rfl : { t with deleted := true } :: ts = l' := by simpa using h
      simp
    · simp only [softDeleteFirst, if_neg h1] at h
      cases hu : softDeleteFirst id ts with
      | none => rw [hu] at h; simp at h
      | some l₂ =>
        rw [hu] at h
        obtain rfl : t :: l₂ = l' := by simpa using h
        simp [ih l₂ (by rw [hu])]

/-- C2 (amended): `hardDelete(id)` removes every record whose id matches (the
collection becomes the filter keeping the other ids); when exactly one task
has the id the length decreases by exactly one and it returns true; when no
task has the id it returns false and the collection is unchanged. -/
theorem hardDelete_spec (id : String) (s : MState) :
    coll (hardDelete id s).1 = (coll s).filter (fun t => t.id != id) ∧
    ((coll s).countP (fun t => t.id == id) = 1 →
      (coll (hardDelete id s).1).length + 1 = (coll s).length ∧ (hardDelete id s).2 = true) ∧
    ((∀ t ∈ coll s, t.id ≠ id) →
      (hardDelete id s).2 = false ∧ coll (hardDelete id s).1 = coll s) := by
  have hc : coll (loadIfNeeded s) = coll s := coll_loadIfNeeded s
  have hcoll : coll (hardDelete id s).1 = (coll s).filter (fun t => t.id != id) := by
    have h0 : coll (hardDelete id s).1
        = (coll (loadIfNeeded s)).filter (fun t => t.id != id) := rfl
    rw [h0, hc]
  have hsnd : (hardDelete id s).2
      = decide (((coll s).filter (fun t => t.id != id)).length < (coll s).length) := by
    have h0 : (hardDelete id s).2
        = decide (((coll (loadIfNeeded s)).filter (fun t => t.id != id)).length
            < (coll (loadIfNeeded s)).length) := rfl
    rw [h0, hc]
  have hlen : (coll s).length =
      ((coll s).filter (fun t => t.id == id)).length +
        ((coll s).filter (fun t => t.id != id)).length := by
    simpa [bne] using @List.length_eq_length_filter_add ITask (coll s) (fun t => t.id == id)
  refine ⟨hcoll, ?_, ?_⟩
  · intro h1
    have hone : ((coll s).filter (fun t => t.id == id)).length = 1 := by
      rw [← List.countP_eq_length_filter]; exact h1
    have hlength : (coll (hardDelete id s).1).length + 1 = (coll s).length := by
      rw [hcoll]; omega
    refine ⟨hlength, ?_⟩
    rw [hsnd, decide_eq_true_eq]
    omega
  · intro h
    have hself : (coll s).filter (fun t => t.id != id) = coll s :=
      List.filter_eq_self.mpr fun t ht => by simpa using h t ht
    refine ⟨?_, by rw [hcoll, hself]⟩
    rw [hsnd, hself]
    simp

/-- C2 counterexample: with two tasks that share id "a" (such duplicates are
reachable because `add` never checks ids), `hardDelete "a"` returns true but
the collection length drops from 2 to 0 — not by exactly one. -/
theorem hardDelete_spec_counterexample :
    (∃ t ∈ coll sDup, t.id = "a") ∧
    (hardDelete "a" sDup).2 = true ∧
    (coll sDup).length = 2 ∧
    (coll (hardDelete "a" sDup).1).length = 0 ∧
    ¬((coll (hardDelete "a" sDup).1).length + 1 = (coll sDup).length) := by
  exact ⟨⟨taskA, by simp [coll, sDup], rfl⟩, rfl, rfl, rfl, by decide⟩

/-- Concrete instantiation of `hardDelete_spec`: deleting the only "a" task
shrinks the collection from 1 to 0 and returns true; deleting an unknown id
returns false and keeps the collection. -/
theorem hardDelete_spec_witness :
    ((coll (hardDelete "a" sOne).1).length + 1 = (coll sOne).length ∧
      (hardDelete "a" sOne).2 = true) ∧
    ((hardDelete "zzz" sOne).2 = false ∧ coll (hardDelete "zzz" sOne).1 = coll sOne) := by
  exact ⟨(hardDelete_spec "a" sOne).2.1 (by decide),
    (hardDelete_spec "zzz" sOne).2.2 (by decide)⟩

/-- C1: a payload whose title is absent or empty makes the Task constructor
fail with the validation error; with a non-empty title it succeeds and each
absent field takes its documented default (difficulty medium, priority 3,
status todo, deleted false, tags and relatedIds empty). -/
theorem mkTask_spec (freshId nowIso : String) (p : TaskPayload) :
    ((p.title = none ∨ p.title = some "") →
      mkTask freshId nowIso p = .error "Task must have a non-empty title") ∧
    (∀ t, p.title = some t → t ≠ "" →
      ∃ task, mkTask freshId nowIso p = .ok task ∧
        task.title = t ∧
        (p.difficulty = none → task.difficulty = "medium") ∧
        (p.priority = none → task.priority = 3) ∧
        (p.status = none → task.status = "todo") ∧
        (p.deleted = none → task.deleted = false) ∧
        (p.tags = none → task.tags = []) ∧
        (p.relatedIds = none → task.relatedIds = [])) := by
  constructor
  · rintro (h | h) <;> simp [mkTask, h]
  · intro t ht hne
    refine ⟨{ id := p.id.getD freshId, title := t, description := p.description,
              createdAt := p.createdAt.getD nowIso, dueDate := p.dueDate,
              difficulty := p.difficulty.getD "medium", priority := p.priority.getD 3,
              status := p.status.getD "todo", tags := p.tags.getD [],
              relatedIds := p.relatedIds.getD [], deleted := p.deleted.getD false },
            by simp [mkTask, ht, hne], rfl, ?_, ?_, ?_, ?_, ?_, ?_⟩ <;>
      intro h <;> simp [h]

/-- Concrete instantiation of `mkTask_spec`: the empty payload fails, and a
payload carrying only a title succeeds with the default difficulty. -/
theorem mkTask_spec_witness :
    mkTask "u1" "2025-01-01T00:00:00Z" {} = .error "Task must have a non-empty title" ∧
    ∃ task, mkTask "u1" "2025-01-01T00:00:00Z" { title := some "hello" } = .ok task ∧
      task.difficulty = "medium" := by
  refine ⟨(mkTask_spec "u1" "2025-01-01T00:00:00Z" {}).1 (Or.inl rfl), ?_⟩
  obtain ⟨task, hok, -, hdiff, -⟩ :=
    (mkTask_spec "u1" "2025-01-01T00:00:00Z" { title := some "hello" }).2 "hello" rfl (by decide)
  exact ⟨task, hok, hdiff rfl⟩

/-- C3 (amended): every Manager operation preserves the `createdAt` of the
existing tasks — `add` appends without touching them, `softDelete` and
`hardDelete` never rewrite the field, the entity helpers only touch
`status`/`deleted` — and `update` preserves it exactly when the changes
object carries no `createdAt`; a `createdAt` supplied in the changes object
does overwrite the stored one (see the counterexample). -/
theorem createdAt_preserved (freshId nowIso : String) (p c : TaskPayload) (id : String)
    (s : MState) :
    (∀ s' t, add freshId nowIso p s = .ok (s', t) → coll s' = coll s ++ [t]) ∧
    (c.createdAt = none →
      (coll (update id c s).1).map ITask.createdAt = (coll s).map ITask.createdAt) ∧
    ((coll (softDelete id s).1).map ITask.createdAt = (coll s).map ITask.createdAt) ∧
    (∀ t ∈ coll (hardDelete id s).1, t ∈ coll s) ∧
    (∀ t : ITask, t.complete.createdAt = t.createdAt ∧
      t.markDeleted.createdAt = t.createdAt ∧ t.restore.createdAt = t.createdAt) := by
  have hc : coll (loadIfNeeded s) = coll s := coll_loadIfNeeded s
  refine ⟨?_, ?_, ?_, ?_, fun t => ⟨rfl, rfl, rfl⟩⟩
  · intro s' t h
    cases hmk : mkTask freshId nowIso p with
    | error e => simp [add, hmk] at h
    | ok t' =>
      simp only [add, hmk, Except.ok.injEq, Prod.mk.injEq] at h
      obtain ⟨hs', ht⟩ := h
      subst hs'
      subst ht
      show coll (loadIfNeeded s) ++ [t'] = coll s ++ [t']
      rw [hc]
  · intro hcr
    cases hu : updateFirst id c (coll (loadIfNeeded s)) with
    | none =>
      have h0 : update id c s = (loadIfNeeded s, none) := by
        simp [update, hu]
      rw [h0]
      simp [hc]
    | some p2 =>
      have h0 : update id c s = ({ cache := some p2.1, disk := p2.1 }, some p2.2) := by
        cases p2; simp [update, hu]
      rw [h0]
      have hmap := updateFirst_map_createdAt id c hcr (coll (loadIfNeeded s)) p2.1 p2.2
        (by cases p2; simpa using hu)
      show p2.1.map ITask.createdAt = (coll s).map ITask.createdAt
      rw [← hc]
      exact hmap
  · cases hu : softDeleteFirst id (coll (loadIfNeeded s)) with
    | none =>
      have h0 : softDelete id s = (loadIfNeeded s, false) := by
        simp [softDelete, hu]
      rw [h0]
      simp [hc]
    | some l2 =>
      have h0 : softDelete id s = ({ cache := some l2, disk := l2 }, true) := by
        simp [softDelete, hu]
      rw [h0]
      have hmap := softDeleteFirst_map_createdAt id (coll (loadIfNeeded s)) l2 hu
      show l2.map ITask.createdAt = (coll s).map ITask.createdAt
      rw [← hc]
      exact hmap
  · intro t ht
    have h0 : coll (hardDelete id s).1
        = (coll (loadIfNeeded s)).filter (fun x => x.id != id) := rfl
    rw [h0, hc] at ht
    exact List.mem_of_mem_filter ht

/-- C3 counterexample: the stored task's `createdAt` is "2024-01-01...", and
`update` with a changes object carrying `createdAt` rewrites it to
"1999-01-01..." — so `createdAt` is not immutable under `update`. -/
theorem createdAt_preserved_counterexample :
    (coll sOne).map ITask.createdAt = ["2024-01-01T00:00:00Z"] ∧
    (coll (update "a" { createdAt := some "1999-01-01T00:00:00Z" } sOne).1).map ITask.createdAt
      = ["1999-01-01T00:00:00Z"] ∧
    ("1999-01-01T00:00:00Z" : String) ≠ "2024-01-01T00:00:00Z" := by
  exact ⟨rfl, rfl, by decide⟩

/-- Concrete instantiation of `createdAt_preserved`: an `update` that only
changes `status` leaves the stored `createdAt` untouched. -/
theorem createdAt_preserved_witness :
    (coll (update "a" { status := some "done" } sOne).1).map ITask.createdAt
      = (coll sOne).map ITask.createdAt :=
  (createdAt_preserved "u9" "2025-02-02T00:00:00Z" {} { status := some "done" } "a" sOne).2.1 rfl

/-- C4: `update(id, changes)` merges the changes over the found record with
`id` reassigned from the original last (so `changes` can never overwrite it),
returns the merged record and persists the new collection on a match, and on
a miss returns the not-found sentinel with the collection and the disk left
as they were. -/
theorem update_spec (id : String) (c : TaskPayload) (s : MState) :
    (∀ current, (applyChanges current c).id = current.id) ∧
    ((∀ t ∈ coll s, t.id ≠ id) →
      update id c s = (loadIfNeeded s, none) ∧
      coll (update id c s).1 = coll s ∧
      (update id c s).1.disk = s.disk) ∧
    (∀ t0, (coll s).find? (fun t => t.id == id) = some t0 →
      ∃ l', update id c s = ({ cache := some l', disk := l' }, some (applyChanges t0 c)) ∧
        applyChanges t0 c ∈ l') := by
  have hc : coll (loadIfNeeded s) = coll s := coll_loadIfNeeded s
  refine ⟨fun current => rfl, ?_, ?_⟩
  · intro h
    have hnone : updateFirst id c (coll (loadIfNeeded s)) = none := by
      rw [hc]; exact updateFirst_eq_none id c (coll s) h
    have h0 : update id c s = (loadIfNeeded s, none) := by
      simp [update, hnone]
    exact ⟨h0, by rw [h0]; exact hc, by rw [h0]; exact disk_loadIfNeeded s⟩
  · intro t0 hfind
    obtain ⟨l', hl', hmem⟩ := updateFirst_find id c (coll s) t0 hfind
    have hu : updateFirst id c (coll (loadIfNeeded s)) = some (l', applyChanges t0 c) := by
      rw [hc]; exact hl'
    exact ⟨l', by simp [update, hu], hmem⟩

/-- Concrete instantiation of `update_spec`: updating an unknown id changes
nothing and yields the sentinel; updating "a" persists the merged record. -/
theorem update_spec_witness :
    (update "zzz" {} sOne = (loadIfNeeded sOne, none)) ∧
    ∃ l', update "a" { priority := some 5 } sOne
        = ({ cache := some l', disk := l' }, some (applyChanges taskA { priority := some 5 })) := by
  refine ⟨((update_spec "zzz" {} sOne).2.1 (by decide)).1, ?_⟩
  obtain ⟨l', hl', -⟩ := (update_spec "a" { priority := some 5 } sOne).2.2 taskA rfl
  exact ⟨l', hl'⟩

/-- C5: `softDelete(id)` returns false on a miss (leaving the state merely
loaded); on a hit it returns true, stores the found task with its `deleted`
flag set, and that task is excluded from the default `list()` output but
included when `includeDeleted` is requested. -/
theorem softDelete_spec (parse : String → Int) (titleLe : String → String → Bool)
    (id : String) (s : MState) :
    ((∀ t ∈ coll s, t.id ≠ id) → softDelete id s = (loadIfNeeded s, false)) ∧
    ((∃ t ∈ coll s, t.id = id) → (softDelete id s).2 = true) ∧
    (∀ t0, (coll s).find? (fun t => t.id == id) = some t0 →
      (softDelete id s).2 = true ∧
      ({ t0 with deleted := true } : ITask) ∈ coll (softDelete id s).1 ∧
      ({ t0 with deleted := true } : ITask) ∉
        (listTasks parse titleLe {} (softDelete id s).1).2 ∧
      ({ t0 with deleted := true } : ITask) ∈
        (listTasks parse titleLe { includeDeleted := true } (softDelete id s).1).2) := by
  have hc : coll (loadIfNeeded s) = coll s := coll_loadIfNeeded s
  have hmain : ∀ t0, (coll s).find? (fun t => t.id == id) = some t0 →
      (softDelete id s).2 = true ∧
      ({ t0 with deleted := true } : ITask) ∈ coll (softDelete id s).1 ∧
      ({ t0 with deleted := true } : ITask) ∉
        (listTasks parse titleLe {} (softDelete id s).1).2 ∧
      ({ t0 with deleted := true } : ITask) ∈
        (listTasks parse titleLe { includeDeleted := true } (softDelete id s).1).2 := by
    intro t0 hfind
    obtain ⟨l', hl', hmem⟩ := softDeleteFirst_find id (coll s) t0 hfind
    have hu : softDeleteFirst id (coll (loadIfNeeded s)) = some l' := by
      rw [hc]; exact hl'
    have h0 : softDelete id s = ({ cache := some l', disk := l' }, true) := by
      simp [softDelete, hu]
    have hcoll2 : coll (softDelete id s).1 = l' := by rw [h0]; rfl
    refine ⟨by rw [h0], by rw [hcoll2]; exact hmem, ?_, ?_⟩
    · have hlist : (listTasks parse titleLe {} (softDelete id s).1).2
          = (coll (softDelete id s).1).filter isNotDeleted := by
        rw [h0]
        rfl
      rw [hlist]
      intro hcontra
      have := List.of_mem_filter hcontra
      simp [isNotDeleted] at this
    · have hlist : (listTasks parse titleLe { includeDeleted := true } (softDelete id s).1).2
          = coll (softDelete id s).1 := by
        rw [h0]
        rfl
      rw [hlist, hcoll2]
      exact hmem
  refine ⟨?_, ?_, hmain⟩
  · intro h
    have hnone : softDeleteFirst id (coll (loadIfNeeded s)) = none := by
      rw [hc]; exact softDeleteFirst_eq_none id (coll s) h
    simp [softDelete, hnone]
  · intro h
    obtain ⟨t, ht, hid⟩ := h
    have hsome : ((coll s).find? (fun t => t.id == id)).isSome :=
      List.find?_isSome.mpr ⟨t, ht, by simp [hid]⟩
    obtain ⟨t0, ht0⟩ := Option.isSome_iff_exists.mp hsome
    exact (hmain t0 ht0).1

/-- Concrete instantiation of `softDelete_spec`: a miss returns false; a hit
on "a" returns true, and the flagged task is invisible to the default list
but visible with `includeDeleted`. -/
theorem softDelete_spec_witness :
    (softDelete "zzz" sOne).2 = false ∧
    (softDelete "a" sOne).2 = true ∧
    ({ taskA with deleted := true } : ITask) ∉
      (listTasks parseLen (fun _ _ => true) {} (softDelete "a" sOne).1).2 ∧
    ({ taskA with deleted := true } : ITask) ∈
      (listTasks parseLen (fun _ _ => true) { includeDeleted := true }
        (softDelete "a" sOne).1).2 := by
  have h1 := (softDelete_spec parseLen (fun _ _ => true) "zzz" sOne).1 (by decide)
  have h2 := (softDelete_spec parseLen (fun _ _ => true) "a" sOne).2.2 taskA rfl
  exact ⟨by rw [h1], h2.1, h2.2.2.1, h2.2.2.2⟩

/-- C6: `isOverdue(now)` is true exactly when the task carries a (non-falsy)
due date whose parsed time is strictly below the parsed `now`; a task with no
due date is never overdue. (`""` is falsy in JS, so an empty-string due date
counts as absent, matching the source's `!t.dueDate` guard.) -/
theorem isOverdue_spec (parse : String → Int) (nowIso : String) (t : ITask) :
    (isOverdue parse nowIso t = true ↔
      ∃ d, t.dueDate = some d ∧ d ≠ "" ∧ parse d < parse nowIso) ∧
    (t.dueDate = none → isOverdue parse nowIso t = false) := by
  constructor
  · constructor
    · intro h
      cases hd : t.dueDate with
      | none => rw [isOverdue, hd] at h; cases h
      | some d =>
        by_cases he : d = ""
        · rw [isOverdue, hd] at h; simp [he] at h
        · refine ⟨d, rfl, he, ?_⟩
          rw [isOverdue, hd] at h
          simpa [he] using h
    · rintro ⟨d, hd, he, hlt⟩
      rw [isOverdue, hd]
      simp [he, hlt]
  · intro h
    rw [isOverdue, h]

/-- Concrete instantiation of `isOverdue_spec`: with parse = string length,
a due date "a" (length 1) is strictly before now "bb" (length 2), so the task
is overdue; the same task without a due date is not. -/
theorem isOverdue_spec_witness :
    isOverdue parseLen "bb" { taskA with dueDate := some "a" } = true ∧
    isOverdue parseLen "bb" taskA = false := by
  constructor
  · exact (isOverdue_spec parseLen "bb" { taskA with dueDate := some "a" }).1.mpr
      ⟨"a", rfl, by decide, by decide⟩
  · exact (isOverdue_spec parseLen "bb" taskA).2 rfl

/-- The due-date order is transitive (missing dates compare as `Infinity`). -/
theorem dueLe_trans (parse : String → Int) : ∀ a b c : ITask,
    dueLe parse a b = true → dueLe parse b c = true → dueLe parse a c = true := by
  intro a b c hab hbc
  rw [dueLe] at *
  cases ha : dueTime parse a <;> cases hb : dueTime parse b <;> cases hc : dueTime parse c
  all_goals simp_all
  all_goals omega

/-- The due-date order is total. -/
theorem dueLe_total (parse : String → Int) : ∀ a b : ITask,
    (dueLe parse a b || dueLe parse b a) = true := by
  intro a b
  rw [dueLe, dueLe]
  cases ha : dueTime parse a <;> cases hb : dueTime parse b
  all_goals simp
  all_goals omega

/-- C7: `sortByDueDate` returns a reordering of the input (the input itself
is untouched — the embedding is pure and the source sorts a spread copy) in
which a task with no due date never precedes one that has a due date, and
tasks with due dates appear in ascending parsed order. -/
theorem sortByDueDate_spec (parse : String → Int) (l : List ITask) :
    (sortByDueDate parse l).Perm l ∧
    List.Pairwise (fun a b =>
      (dueTime parse a = none → dueTime parse b = none) ∧
      (∀ x y, dueTime parse a = some x → dueTime parse b = some y → x ≤ y))
      (sortByDueDate parse l) := by
  refine ⟨List.mergeSort_perm l _, ?_⟩
  have hs := List.sorted_mergeSort (dueLe_trans parse) (dueLe_total parse) l
  refine hs.imp ?_
  intro a b hab
  constructor
  · intro ha
    cases hb : dueTime parse b with
    | none => rfl
    | some y => rw [dueLe, ha, hb] at hab; cases hab
  · intro x y hx hy
    rw [dueLe, hx, hy] at hab
    simpa using hab

/-- Concrete instantiation of `sortByDueDate_spec`: the sorted copy of a
one-element list is a permutation of it. -/
theorem sortByDueDate_spec_witness :
    (sortByDueDate parseLen [taskA]).Perm [taskA] ∧
    (dueTime parseLen taskA = none → dueTime parseLen taskA = none) := by
  have h := sortByDueDate_spec parseLen [taskA]
  exact ⟨h.1, fun hh => hh⟩

/-- The difficulty order is transitive. -/
theorem diffLe_trans : ∀ a b c : ITask,
    diffLe a b = true → diffLe b c = true → diffLe a c = true := by
  intro a b c hab hbc
  rw [diffLe] at *
  simp only [decide_eq_true_eq] at *
  omega

/-- The difficulty order is total. -/
theorem diffLe_total : ∀ a b : ITask, (diffLe a b || diffLe b a) = true := by
  intro a b
  rw [diffLe, diffLe]
  simp only [Bool.or_eq_true, decide_eq_true_eq]
  omega

/-- C8: `sortByDifficulty` returns a reordering of the input that is
ascending in difficulty rank, where the rank of "low"/"medium"/"high" is
1/2/3 and any unrecognized difficulty string falls into the `default` branch
and ranks as 2 (medium). -/
theorem sortByDifficulty_spec (l : List ITask) (d : String) :
    (sortByDifficulty l).Perm l ∧
    List.Pairwise (fun a b => difficultyRank a.difficulty ≤ difficultyRank b.difficulty)
      (sortByDifficulty l) ∧
    (difficultyRank "low" = 1 ∧ difficultyRank "medium" = 2 ∧ difficultyRank "high" = 3) ∧
    (d ≠ "low" → d ≠ "medium" → d ≠ "high" → difficultyRank d = 2) := by
  refine ⟨List.mergeSort_perm l _, ?_, ⟨rfl, rfl, rfl⟩, ?_⟩
  · have hs := List.sorted_mergeSort diffLe_trans diffLe_total l
    refine hs.imp ?_
    intro a b hab
    rw [diffLe] at hab
    simpa using hab
  · intro h1 h2 h3
    rw [difficultyRank]
    simp [h1, h2, h3]

/-- Concrete instantiation of `sortByDifficulty_spec`: the sorted copy of a
one-element list is a permutation of it, and an unrecognized difficulty
string such as "weird" ranks as 2. -/
theorem sortByDifficulty_spec_witness :
    (sortByDifficulty [taskA]).Perm [taskA] ∧ difficultyRank "weird" = 2 := by
  have h := sortByDifficulty_spec [taskA] "weird"
  exact ⟨h.1, h.2.2.2 (by decide) (by decide) (by decide)⟩

/-- C9: `writeAll` followed by `readAll` returns exactly the written records
that pass the minimal shape check (a string `id` and a string `title`);
failing records are dropped by the filter, and no error is raised (`readAll`
is total on written content). In particular every record serialized from a
constructed task passes the check, so a written task collection is read back
in full. -/
theorem readAll_writeAll_spec (js : List Json) (ts : List ITask) :
    readAll (writeAll js) = js.filter shapeOk ∧
    readAll (writeAll (ts.map taskToJson)) = ts.map taskToJson := by
  refine ⟨rfl, ?_⟩
  show (ts.map taskToJson).filter shapeOk = ts.map taskToJson
  rw [List.filter_eq_self]
  intro j hj
  obtain ⟨t, -, rfl⟩ := List.mem_map.mp hj
  rfl

/-- C10: `add` makes no id-uniqueness check — pushing a payload that reuses
the id "a" of the already-stored task succeeds and leaves two tasks with id
"a" in the collection. -/
theorem add_no_unique_id_check :
    ∃ s' t, add "u2" "2025-01-02T00:00:00Z" { id := some "a", title := some "second" } sOne
        = .ok (s', t) ∧
      t.id = "a" ∧ (coll s').countP (fun x => x.id == "a") = 2 ∧ (coll s').length = 2 := by
  exact ⟨_, _, rfl, rfl, rfl, rfl⟩

end Todo
